import Mathlib

/-!
Verification development for the iscc-nbs-colors validation tool.

The tool (src/main.rs, src/munsell.rs, src/degree.rs) validates a
hue x chroma x value partition of the Munsell color solid into named
regions and computes a representative sRGB color for every region by
volumetric averaging.

Embedding conventions:
* `usize`/`u32` indices and ids become `Nat`.
* `f32` quantities are embedded as exact numbers: `ℚ` where the source
  only performs rational arithmetic and comparisons (hue notation
  parsing, display, table indexing, sortedness checking), and `ℝ` where
  the source uses trigonometric functions (degree.rs and the mean color
  engine).  Claims about these values are settled exactly over the
  idealised arithmetic.
* Code paths that panic (`unwrap` on a failed parse, out-of-bounds
  indexing) are embedded as `Option`/`Except` failures.
-/

deriving instance DecidableEq for Except

namespace ISCC

/-! ## Hue model (src/munsell.rs) -/

/-- The ten Munsell sector letter codes, in the order of the
`LETTER_CODES` constant of src/munsell.rs (which is also the
alternation order of the parsing regex). -/
def LETTER_CODES : List String := ["R", "YR", "Y", "GY", "G", "BG", "B", "PB", "P", "RP"]

/-- Value of a list of decimal digit characters read as an integer. -/
def digitsVal (ds : List Char) : ℚ :=
  ds.foldl (fun acc d => acc * 10 + ((d.toNat - 48 : Nat) : ℚ)) 0

/-- Value of a list of decimal digit characters read as a fractional
part (digits after the decimal point). -/
def fracVal (ds : List Char) : ℚ :=
  digitsVal ds / (10 ^ ds.length)

/-- Parse the numeric prefix matched by the regex fragment
`\d*\.?\d+` of `huespec_to_point` (src/munsell.rs line 77), returning
the parsed value and the unconsumed remainder.  A dot that is not
followed by a digit cannot be part of the match (the regex backtracks),
and a match must contain at least one digit. -/
def parseNum (cs : List Char) : Option (ℚ × List Char) :=
  let ds1 := cs.takeWhile Char.isDigit
  let rest1 := cs.dropWhile Char.isDigit
  match rest1 with
  | '.' :: cs2 =>
    let ds2 := cs2.takeWhile Char.isDigit
    let rest2 := cs2.dropWhile Char.isDigit
    if ds2.isEmpty then
      if ds1.isEmpty then none else some (digitsVal ds1, rest1)
    else
      some (digitsVal ds1 + fracVal ds2, rest2)
  | _ => if ds1.isEmpty then none else some (digitsVal ds1, rest1)

/-- Match the letter-code group `(R|YR|Y|GY|G|BG|B|PB|P|RP)` of the
parsing regex against the remainder of the input.  Regex alternation is
leftmost-first and the pattern has no end anchor, so the first
alternative that is a prefix of the remainder wins (in particular `R`
shadows `RP`). -/
def findCode (cs : List Char) : Option Nat :=
  (List.range LETTER_CODES.length).find?
    (fun i => (LETTER_CODES.getD i "").toList.isPrefixOf cs)

/-- Remainder `a % b` as computed by Rust's `%` on the nonnegative
operands occurring in this program (`a - b * trunc (a / b)`, which for
`0 ≤ a` and `0 < b` equals the floor-based remainder used here). -/
def fmodQ (a b : ℚ) : ℚ := a - b * ((⌊a / b⌋ : ℤ) : ℚ)

/-- `huespec_to_point` (src/munsell.rs lines 75-99): parse a lettered
hue notation and map it to a point on the 0-100 hue circle via
`((hue_code * 10) + (hue_number - 5) + 100) % 100`.  `none` models the
`unwrap` panic on input the regex does not match. -/
def huespecToPoint (s : String) : Option ℚ :=
  match parseNum s.toList with
  | none => none
  | some (n, rest) =>
    match findCode rest with
    | none => none
    | some k => some (fmodQ ((k * 10 : Nat) + (n - 5) + 100) 100)

/-- `MunsellHue` (src/munsell.rs line 15): a single raw value on the
0-100 hue circle.  `MunsellHue.mk` is the source's `new`, which stores
the value unchanged (no normalization). -/
structure MunsellHue where
  raw : ℚ
deriving DecidableEq

/-- `MunsellHue::from_str` (src/munsell.rs lines 30-32). -/
def MunsellHue.fromStr (s : String) : Option MunsellHue :=
  (huespecToPoint s).map MunsellHue.mk

/-- `MunsellHue::to_degrees` (src/munsell.rs lines 49-51):
`self.0 * (360.0 / 100.0)`. -/
def MunsellHue.toDegreesQ (h : MunsellHue) : ℚ := h.raw * (360 / 100)

/-- Render a nonnegative rational with the `{:1.2}` format used by the
`fmt::Display` impl for `MunsellHue`: two digits after the decimal
point.  The displayed values in this program are exact hundredths, for
which every rounding mode of the float formatter agrees with the
rounding used here. -/
def formatFixed2 (q : ℚ) : String :=
  let c := (⌊q * 100 + 1 / 2⌋ : ℤ).toNat
  let ip := c / 100
  let fp := c % 100
  toString ip ++ "." ++ (if fp < 10 then "0" ++ toString fp else toString fp)

/-- The `fmt::Display` impl for `MunsellHue` (src/munsell.rs lines
60-68): shift the point by 5, reduce modulo 100, split into a
sector-relative offset `hn` and a sector index, and print the offset to
two decimals followed by the sector letter code.  The source indexes
`LETTER_CODES[index]` without a bounds check; the `getD` default is
never reached because `hp < 100` forces `index ≤ 9`. -/
def displayPoint (x : ℚ) : String :=
  let hp := fmodQ (x + 5) 100
  let hn := fmodQ hp 10
  let index := (⌊(hp - hn) / 10⌋ : ℤ).toNat
  formatFixed2 hn ++ LETTER_CODES.getD index ""

/-- Display of a `MunsellHue` value. -/
def displayHue (h : MunsellHue) : String := displayPoint h.raw

/-- `from_str` followed by `to_string`, the round-trip of claim C7.
`none` models the parse panic. -/
def roundTrip (s : String) : Option String :=
  (huespecToPoint s).map displayPoint

/-- `MunsellColor` (src/munsell.rs lines 101-106). -/
structure MunsellColor where
  hue : MunsellHue
  value : ℚ
  chroma : ℚ
deriving DecidableEq

/-- An Lch triple as produced by `to_approximate_lch` (lightness,
uniform chroma, LabHue degrees). -/
structure LchQ where
  l : ℚ
  c : ℚ
  h : ℚ
deriving DecidableEq

/-- The six hue anchors `LABHUE_HUES` of `to_approximate_lch`
(src/munsell.rs lines 134-141). -/
def LABHUE_HUES : List ℚ := [24, 90, 145, 245, 310, 360 + 24]

/-- `interpolation::lerp` for floats: `a + (b - a) * t`. -/
def lerpQ (a b t : ℚ) : ℚ := a + (b - a) * t

/-- `MunsellColor::to_approximate_lch` (src/munsell.rs lines 124-151).
The `index_float as usize` cast truncates toward zero and saturates at
0 for negative inputs, which `Int.toNat ∘ Int.floor` reproduces.
`none` models the panic on an out-of-bounds `LABHUE_HUES` access. -/
def MunsellColor.toApproximateLch (mc : MunsellColor) : Option LchQ :=
  let l := mc.value * 10
  let c := mc.chroma * 5
  let hue := mc.hue.raw
  let indexFloat := hue / 20
  let index := (⌊indexFloat⌋ : ℤ).toNat
  let indexRemainder := indexFloat - (index : ℚ)
  match LABHUE_HUES.get? index, LABHUE_HUES.get? (index + 1) with
  | some a, some b => some ⟨l, c, lerpQ a b indexRemainder⟩
  | _, _ => none

/-! ## Axis-list validation (src/main.rs, get_amount_list) -/

/-- The adjacent-pairs sortedness test applied by `get_amount_list`
(src/main.rs line 159) through the `is_sorted` crate: every adjacent
pair must compare less-or-equal (non-strict). -/
def isSortedList : List ℚ → Bool
  | [] => true
  | [_] => true
  | a :: b :: t => decide (a ≤ b) && isSortedList (b :: t)

/-- `get_amount_list` (src/main.rs lines 139-165), applied to the
already-parsed boundary values (string-to-f32 parsing is done by the
standard library and a parse failure panics before this check).  The
error is the fatal "array is not in sorted order" configuration
error. -/
def getAmountList (xs : List ℚ) : Except String (List ℚ) :=
  if isSortedList xs then .ok xs else .error "array is not in sorted order"

/-- The spec's axis invariant, written from the spec's words: the
boundary values must be strictly increasing.  Kept separate from
`getAmountList` (which is translated from the source) so the two can be
compared. -/
def specStrictlyIncreasing (xs : List ℚ) : Prop := xs.Chain' (· < ·)

instance (xs : List ℚ) : Decidable (specStrictlyIncreasing xs) := by
  unfold specStrictlyIncreasing; infer_instance

/-! ## Occupancy-table index function (src/main.rs lines 190-201) -/

/-- The `index` closure of `validate_blocks`: bounds-guard the three
coordinates, then flatten.  Note the guards are all `>` against
`hues.len()`, `chromas.len() - 1` and `values.len() - 1`
respectively. -/
def indexFn (huesLen chromasLen valuesLen h c v : Nat) : Option Nat :=
  if h > huesLen then none
  else if c > chromasLen - 1 then none
  else if v > valuesLen - 1 then none
  else some (h * ((chromasLen - 1) * (valuesLen - 1)) + c * (valuesLen - 1) + v)


/-! ## Partition validator (src/main.rs, validate_blocks) -/

/-- A region declaration as resolved by `validate_blocks` from a
`<range>` element (src/main.rs lines 227-245): the region id and the
axis indices returned by `position` for the six boundary labels. -/
structure RangeDecl where
  color_id : Nat
  hue_begin : Nat
  hue_end : Nat
  chroma_begin : Nat
  chroma_end : Nat
  value_begin : Nat
  value_end : Nat
deriving DecidableEq

/-- `ColorBlock` (src/main.rs lines 33-38), with the three `Range`
fields flattened into start/end index pairs. -/
structure ColorBlock where
  color_id : Nat
  hue_start : Nat
  hue_end : Nat
  chroma_start : Nat
  chroma_end : Nat
  value_start : Nat
  value_end : Nat
deriving DecidableEq

/-- The block pushed for a declaration (src/main.rs lines 266-280):
the original begin/end indices (the hue end is the original index, not
the wrap-adjusted logical end). -/
def toColorBlock (d : RangeDecl) : ColorBlock :=
  ⟨d.color_id, d.hue_begin, d.hue_end, d.chroma_begin, d.chroma_end, d.value_begin, d.value_end⟩

/-- The two fatal validation failures of `validate_blocks`: an overlap
(reported with the previous occupant id, the new id and the cell
coordinate, src/main.rs lines 253-259) and a gap (reported with the
cell coordinate, lines 290-296). -/
inductive ValidateErr where
  | overlap (oldId newId h c v : Nat)
  | gap (h c v : Nat)
deriving DecidableEq

/-- The wrap adjustment of the hue end index (src/main.rs lines
220-225): if `hue_end_index < hue_begin_index` the logical end is
`hue_end_index + hues.len()`. -/
def hueLogicalEnd (huesLen : Nat) (d : RangeDecl) : Nat :=
  if d.hue_end < d.hue_begin then d.hue_end + huesLen else d.hue_end

/-- The cells written for one declaration, in the iteration order of
the triple loop of src/main.rs lines 246-263: hue indices run from the
begin index to the logical end and are reduced modulo `hues.len()`;
chroma and value indices run over plain half-open ranges. -/
def declCells (huesLen : Nat) (d : RangeDecl) : List (Nat × Nat × Nat) :=
  (List.range' d.hue_begin (hueLogicalEnd huesLen d - d.hue_begin)).flatMap fun h =>
    (List.range' d.chroma_begin (d.chroma_end - d.chroma_begin)).flatMap fun c =>
      (List.range' d.value_begin (d.value_end - d.value_begin)).map fun v =>
        (h % huesLen, c, v)

/-- The `index(h, c, v).unwrap()` combination used at the table access
sites of `validate_blocks` (src/main.rs lines 251 and 288).  At every
call site of the source the closure returns `Some`, so the `getD`
default is unreachable there. -/
def idxU (huesLen chromasLen valuesLen : Nat) (cell : Nat × Nat × Nat) : Nat :=
  (indexFn huesLen chromasLen valuesLen cell.1 cell.2.1 cell.2.2).getD 0

/-- All cells of the occupancy table, in the iteration order of the
final gap scan (src/main.rs lines 285-299). -/
def allCells (huesLen chromasLen valuesLen : Nat) : List (Nat × Nat × Nat) :=
  (List.range huesLen).flatMap fun h =>
    (List.range (chromasLen - 1)).flatMap fun c =>
      (List.range (valuesLen - 1)).map fun v => (h, c, v)

/-- Write one declaration into the occupancy table (the inner triple
loop of src/main.rs lines 246-264): visiting each of the declaration's
cells in order, fail with an overlap error if the cell is already
non-zero, otherwise store the declaration's color id. -/
def fillDecl (huesLen chromasLen valuesLen : Nat) (t : Nat → Nat) (d : RangeDecl) :
    Except ValidateErr (Nat → Nat) :=
  (declCells huesLen d).foldlM
    (fun t cell =>
      let idx := idxU huesLen chromasLen valuesLen cell
      if t idx ≠ 0 then
        Except.error (.overlap (t idx) d.color_id cell.1 cell.2.1 cell.2.2)
      else
        Except.ok (Function.update t idx d.color_id))
    t

/-- `validate_blocks` (src/main.rs lines 175-302): start from an
all-zero table, write every declaration in order (failing fast on an
overlap), then scan every table cell for a remaining zero (a gap), and
on success return one block per declaration, in order. -/
def validateBlocks (huesLen chromasLen valuesLen : Nat) (decls : List RangeDecl) :
    Except ValidateErr (List ColorBlock) := do
  let t ← decls.foldlM (fillDecl huesLen chromasLen valuesLen) (fun _ => 0)
  match (allCells huesLen chromasLen valuesLen).find?
      (fun cell => t (idxU huesLen chromasLen valuesLen cell) == 0) with
  | some cell => Except.error (.gap cell.1 cell.2.1 cell.2.2)
  | none => pure (decls.map toColorBlock)

/-- Well-formedness of a resolved declaration: a positive region id
(ids are 1-based; 0 is the table's "unfilled" marker) and in-range axis
indices, which are the postconditions of the successful (panicking on
failure) `position` lookups that produced them. -/
def DeclWF (huesLen chromasLen valuesLen : Nat) (d : RangeDecl) : Prop :=
  0 < d.color_id ∧ d.hue_begin < huesLen ∧ d.hue_end < huesLen ∧
    d.chroma_begin < chromasLen ∧ d.chroma_end < chromasLen ∧
    d.value_begin < valuesLen ∧ d.value_end < valuesLen

instance (huesLen chromasLen valuesLen : Nat) (d : RangeDecl) :
    Decidable (DeclWF huesLen chromasLen valuesLen d) := by
  unfold DeclWF; infer_instance

/-- How many times the declarations claim a cell, counted with
multiplicity across (and within) declarations. -/
def claimCount (huesLen : Nat) (decls : List RangeDecl) (cell : Nat × Nat × Nat) : Nat :=
  (decls.map fun d => (declCells huesLen d).count cell).sum

/-- The declarations claim every cell of the occupancy table exactly
once. -/
def ExactCover (huesLen chromasLen valuesLen : Nat) (decls : List RangeDecl) : Prop :=
  ∀ cell ∈ allCells huesLen chromasLen valuesLen, claimCount huesLen decls cell = 1

instance (huesLen chromasLen valuesLen : Nat) (decls : List RangeDecl) :
    Decidable (ExactCover huesLen chromasLen valuesLen decls) := by
  unfold ExactCover; infer_instance

/-! ## Circular angle math (src/degree.rs), over the reals -/

/-- Two-argument arctangent: `y.atan2(x)` is the angle of the point
`(x, y)`, in `(-pi, pi]` with `atan2 0 0 = 0`, which is `Complex.arg`
of `x + y*I`. -/
noncomputable def atan2R (y x : ℝ) : ℝ := Complex.arg ⟨x, y⟩

/-- `f32::to_radians`: `self * (PI / 180)`. -/
noncomputable def toRadiansR (x : ℝ) : ℝ := x * (Real.pi / 180)

/-- `f32::to_degrees`: `self * (180 / PI)`. -/
noncomputable def toDegreesR (x : ℝ) : ℝ := x * (180 / Real.pi)

/-- `degree_average` (src/degree.rs lines 1-10): average the
unit-circle components of the two angles and recover the angle with
`atan2`. -/
noncomputable def degree_average (f1 f2 : ℝ) : ℝ :=
  let c1 := Real.cos (toRadiansR f1)
  let c2 := Real.cos (toRadiansR f2)
  let s1 := Real.sin (toRadiansR f1)
  let s2 := Real.sin (toRadiansR f2)
  let cavg := (c1 + c2) / 2
  let savg := (s1 + s2) / 2
  toDegreesR (atan2R savg cavg)

/-- `degree_diff` (src/degree.rs lines 12-17): cosine and sine of the
angle difference, reassembled with `atan2`, converted to degrees, then
the absolute value. -/
noncomputable def degree_diff (f1 f2 : ℝ) : ℝ :=
  let c := Real.cos (toRadiansR f1 - toRadiansR f2)
  let s := Real.sin (toRadiansR f1 - toRadiansR f2)
  |toDegreesR (atan2R s c)|

/-! ## Mean color engine (src/main.rs, get_mean_colors), over the reals -/

/-- `deinfinite` (src/main.rs lines 304-310). -/
def deinfinite (x : String) : String := if x = "INF" then "9999" else x

/-- Value of an axis boundary label under `str::parse::<f32>` for the
plain decimal numerals used by the axis lists (`none` models the
`unwrap` panic on a label that is not such a numeral; the exotic forms
the standard parser also accepts — signs, exponents, infinities — do
not occur as axis labels). -/
def labelToQ (s : String) : Option ℚ :=
  match parseNum s.toList with
  | some (q, []) => some q
  | _ => none

/-- Hue point of the axis label at index `i` of `hues`, as resolved by
`MunsellHue::from_str(&hues[...])` in src/main.rs lines 341-349.
Out-of-range indexing and parse failures are panics in the source; the
defaults here are unreachable under the theorems' hypotheses. -/
def huePointOf (hues : List String) (i : Nat) : ℚ :=
  (huespecToPoint (hues.getD i "")).getD 0

/-- The boundary angle in degrees of hue index `i`
(`.to_degrees()` of the parsed hue, src/main.rs line 350). -/
noncomputable def hueDegOf (hues : List String) (i : Nat) : ℝ :=
  ((huePointOf hues i : ℚ) : ℝ) * (360 / 100)

/-- Resolved chroma start boundary (src/main.rs lines 343, 352):
parsed, unclamped. -/
def chromaStartQ (chromas : List String) (b : ColorBlock) : ℚ :=
  (labelToQ (chromas.getD b.chroma_start "")).getD 0

/-- Resolved chroma end boundary (src/main.rs lines 344, 353):
de-infinited, parsed and clamped with `.min(16.0)`. -/
def chromaEndQ (chromas : List String) (b : ColorBlock) : ℚ :=
  min ((labelToQ (deinfinite (chromas.getD b.chroma_end ""))).getD 0) 16

/-- Resolved value start boundary (src/main.rs lines 345, 354). -/
def valueStartQ (values : List String) (b : ColorBlock) : ℚ :=
  (labelToQ (values.getD b.value_start "")).getD 0

/-- Resolved value end boundary (src/main.rs lines 346, 355):
de-infinited, parsed and clamped with `.min(10.0)`. -/
def valueEndQ (values : List String) (b : ColorBlock) : ℚ :=
  min ((labelToQ (deinfinite (values.getD b.value_end ""))).getD 0) 10

/-- The signed area accumulated for a block (src/main.rs lines
348-359).  Note that `hue_delta` — already in degrees — is passed
through `f32::to_degrees()` once more before entering the two area
terms, exactly as the source does. -/
noncomputable def areaOf (hues chromas : List String) (b : ColorBlock) : ℝ :=
  let hue_delta := degree_diff (hueDegOf hues b.hue_start) (hueDegOf hues b.hue_end)
  let chroma_start_f : ℝ := (chromaStartQ chromas b : ℝ)
  let chroma_end_f : ℝ := (chromaEndQ chromas b : ℝ)
  let area_outer := chroma_end_f * chroma_end_f * toDegreesR hue_delta / 360
  let area_inner := chroma_start_f * chroma_start_f * toDegreesR hue_delta / 360
  area_outer - area_inner

/-- The area formula asserted by the spec, written from the spec's
words: `chroma_end^2 * hue_delta/360 - chroma_start^2 * hue_delta/360`
with `hue_delta` the circular difference in degrees of the block's
boundary angles.  Kept separate from `areaOf` (translated from the
source) so the two can be compared. -/
noncomputable def specArea (hues chromas : List String) (b : ColorBlock) : ℝ :=
  let hue_delta := degree_diff (hueDegOf hues b.hue_start) (hueDegOf hues b.hue_end)
  (chromaEndQ chromas b : ℝ) ^ 2 * hue_delta / 360 -
    (chromaStartQ chromas b : ℝ) ^ 2 * hue_delta / 360

/-- The volume accumulated for a block (src/main.rs line 360). -/
noncomputable def volumeOf (hues chromas values : List String) (b : ColorBlock) : ℝ :=
  areaOf hues chromas b * ((valueEndQ values b : ℝ) - (valueStartQ values b : ℝ))

/-- Center value of a block (src/main.rs line 363). -/
noncomputable def centerValueOf (values : List String) (b : ColorBlock) : ℝ :=
  ((valueStartQ values b : ℝ) + (valueEndQ values b : ℝ)) / 2

/-- Center chroma of a block (src/main.rs line 362). -/
noncomputable def centerChromaOf (chromas : List String) (b : ColorBlock) : ℝ :=
  ((chromaStartQ chromas b : ℝ) + (chromaEndQ chromas b : ℝ)) / 2

/-- Center hue of a block (src/main.rs line 364). -/
noncomputable def centerHueOf (hues : List String) (b : ColorBlock) : ℝ :=
  degree_average (hueDegOf hues b.hue_start) (hueDegOf hues b.hue_end)

/-- `ColorAccumulator` (src/main.rs lines 312-319). -/
structure ColorAccumulator where
  v : ℝ
  c : ℝ
  hx : ℝ
  hy : ℝ
  volume : ℝ

/-- The all-zero accumulator used to initialize the table
(src/main.rs lines 329-338). -/
def zeroAccumulator : ColorAccumulator := ⟨0, 0, 0, 0, 0⟩

/-- One block's update of its region's accumulator (the `+=` block of
src/main.rs lines 368-373). -/
noncomputable def contribStep (hues chromas values : List String)
    (a : ColorAccumulator) (b : ColorBlock) : ColorAccumulator :=
  let volume := volumeOf hues chromas values b
  ⟨a.v + centerValueOf values b * volume,
    a.c + centerChromaOf chromas b * volume,
    a.hx + Real.cos (toRadiansR (centerHueOf hues b)) * volume,
    a.hy + Real.sin (toRadiansR (centerHueOf hues b)) * volume,
    a.volume + volume⟩

/-- Fold one block into the 267-entry accumulator table
(src/main.rs line 368: the table is indexed at `color_id - 1`; an
out-of-range id panics in the source, while `List.set` leaves the
table unchanged — the theorems' hypotheses keep ids in range). -/
noncomputable def accumulateBlock (hues chromas values : List String)
    (acc : List ColorAccumulator) (b : ColorBlock) : List ColorAccumulator :=
  acc.set (b.color_id - 1)
    (contribStep hues chromas values (acc.getD (b.color_id - 1) zeroAccumulator) b)

/-- The accumulation pass of `get_mean_colors` (src/main.rs lines
328-374): a 267-entry table of zero accumulators, folded over the
blocks in order. -/
noncomputable def accumulate (hues chromas values : List String)
    (blocks : List ColorBlock) : List ColorAccumulator :=
  blocks.foldl (accumulateBlock hues chromas values)
    (List.replicate 267 zeroAccumulator)

/-- The mean value `a.v / a.volume` computed at finalization for
region id `id` (src/main.rs line 381). -/
noncomputable def meanValueOf (hues chromas values : List String)
    (blocks : List ColorBlock) (id : Nat) : ℝ :=
  let a := (accumulate hues chromas values blocks).getD (id - 1) zeroAccumulator
  a.v / a.volume

/-- An Lch triple over the reals, as fed to the palette conversion. -/
structure LchR where
  l : ℝ
  c : ℝ
  h : ℝ

/-- An sRGB triple over the reals. -/
structure SrgbR where
  r : ℝ
  g : ℝ
  b : ℝ

/-- `palette::Srgb::is_within_bounds`: every channel in `[0, 1]`. -/
def SrgbWithinBounds (c : SrgbR) : Prop :=
  0 ≤ c.r ∧ c.r ≤ 1 ∧ 0 ≤ c.g ∧ c.g ≤ 1 ∧ 0 ≤ c.b ∧ c.b ≤ 1

/-- Real remainder as computed by Rust `%` on the nonnegative operands
occurring here. -/
noncomputable def fmodR (a b : ℝ) : ℝ := a - b * ((⌊a / b⌋ : ℤ) : ℝ)

/-- `to_approximate_lch` over the reals (same structure as the `ℚ`
model `MunsellColor.toApproximateLch`, for the finalization pipeline
whose hue comes from real-valued `atan2`). -/
noncomputable def toApproximateLchR (hue value chroma : ℝ) : Option LchR :=
  let l := value * 10
  let c := chroma * 5
  let indexFloat := hue / 20
  let index := (⌊indexFloat⌋ : ℤ).toNat
  let indexRemainder := indexFloat - (index : ℝ)
  match LABHUE_HUES.get? index, LABHUE_HUES.get? (index + 1) with
  | some a, some b => some ⟨l, c, ((a : ℝ) + ((b : ℝ) - (a : ℝ)) * indexRemainder)⟩
  | _, _ => none

open Classical in
/-- The gamut-reduction loop of src/main.rs lines 385-394, with an
explicit fuel bound: break as soon as the converted color is within
bounds, otherwise multiply the Lch chroma by 0.99 and reconvert.
`none` means the loop has not exited within `fuel` iterations (the
source loop is unbounded).  The Lch-to-sRGB conversion — external
library code from the palette crate — is the parameter `conv`. -/
noncomputable def gamutReduce (conv : LchR → SrgbR) : Nat → LchR → Option SrgbR
  | 0, _ => none
  | fuel + 1, lch =>
    if SrgbWithinBounds (conv lch) then some (conv lch)
    else gamutReduce conv fuel ⟨lch.l, lch.c * 0.99, lch.h⟩

/-- Finalization of one accumulator (src/main.rs lines 378-396):
recover the mean hue angle with `atan2`, map it back to the 0-100 hue
circle, build the mean Munsell color, convert to approximate Lch and
run the gamut-reduction loop. -/
noncomputable def finalizeAcc (conv : LchR → SrgbR) (fuel : Nat)
    (a : ColorAccumulator) : Option SrgbR :=
  let angleDegrees := toDegreesR (atan2R (a.hy / a.volume) (a.hx / a.volume))
  let hueRaw := fmodR (angleDegrees * 100 / 360 + 100) 100
  match toApproximateLchR hueRaw (a.v / a.volume) (a.c / a.volume) with
  | none => none
  | some lch => gamutReduce conv fuel lch

/-- `get_mean_colors` (src/main.rs lines 321-401): accumulate all
blocks, then finalize every entry of the 267-entry accumulator
table. -/
noncomputable def getMeanColors (conv : LchR → SrgbR) (fuel : Nat)
    (hues chromas values : List String) (blocks : List ColorBlock) :
    List (Option SrgbR) :=
  (accumulate hues chromas values blocks).map (finalizeAcc conv fuel)

/-- The largest region id referenced by any block, written from the
spec's words (it names `max_id` but the source has no such
computation). -/
def maxColorId (blocks : List ColorBlock) : Nat :=
  blocks.foldl (fun m b => max m b.color_id) 0

/-! ## NaN-propagation model of the finalization pipeline

`f32` division of zero by zero yields NaN, and NaN propagates through
every arithmetic operation and makes every comparison false.  To settle
the termination claim about the gamut-reduction loop on a zero-volume
accumulator, the pipeline is repeated here over `Option ℚ`, where
`none` stands for a non-finite `f32` value (NaN or an infinity) and
`some q` for the finite value `q`.  The two transcendental helpers the
pipeline applies to the already-non-finite mean hue (`f32::atan2` and
`f32::to_degrees`) are parameters constrained by their IEEE
NaN-propagation property. -/

namespace NanModel

/-- A finite `f32` value, or `none` for a non-finite one. -/
abbrev FV : Type := Option ℚ

/-- Addition: non-finite operands never produce a finite result. -/
def fadd : FV → FV → FV
  | some a, some b => some (a + b)
  | _, _ => none

/-- Subtraction. -/
def fsub : FV → FV → FV
  | some a, some b => some (a - b)
  | _, _ => none

/-- Multiplication (NaN absorbs; an infinity times the nonzero finite
constants used here stays non-finite). -/
def fmul : FV → FV → FV
  | some a, some b => some (a * b)
  | _, _ => none

/-- Division: division by zero and non-finite operands give a
non-finite result. -/
def fdiv : FV → FV → FV
  | some a, some b => if b = 0 then none else some (a / b)
  | _, _ => none

/-- Rust `%` on finite values, `none` otherwise. -/
def fmodF : FV → FV → FV
  | some a, some b => if b = 0 then none else some (a - b * ((⌊a / b⌋ : ℤ) : ℚ))
  | _, _ => none

/-- The `as usize` cast: truncation for finite nonnegative values,
saturation to 0 for negative and NaN inputs. -/
def castUsize : FV → Nat
  | some q => (⌊q⌋ : ℤ).toNat
  | none => 0

/-- A channel passes the `0.0 <= x && x <= 1.0` test only if it is
finite and in range: both comparisons are false on NaN and one of them
is false on each infinity. -/
def inUnit : FV → Bool
  | some q => decide (0 ≤ q ∧ q ≤ 1)
  | none => false

/-- An Lch triple with possibly non-finite components. -/
structure LchF where
  l : FV
  c : FV
  h : FV
deriving DecidableEq

/-- An sRGB triple with possibly non-finite components. -/
structure SrgbF where
  r : FV
  g : FV
  b : FV
deriving DecidableEq

/-- `palette::Srgb::is_within_bounds` under IEEE comparison
semantics. -/
def withinBounds (c : SrgbF) : Bool :=
  inUnit c.r && inUnit c.g && inUnit c.b

/-- `ColorAccumulator` with possibly non-finite fields. -/
structure AccF where
  v : FV
  c : FV
  hx : FV
  hy : FV
  volume : FV
deriving DecidableEq

/-- The accumulator of a region id that received no block: all fields
are the `0.0` the table was initialized with. -/
def zeroAccF : AccF := ⟨some 0, some 0, some 0, some 0, some 0⟩

/-- `to_approximate_lch` over `FV` (src/munsell.rs lines 124-151 under
IEEE semantics: a NaN hue casts to segment index 0, and the lerp then
produces a NaN Lch hue). -/
def toApproximateLchF (hue value chroma : FV) : Option LchF :=
  let l := fmul value (some 10)
  let c := fmul chroma (some 5)
  let indexFloat := fdiv hue (some 20)
  let index := castUsize indexFloat
  let indexRemainder := fsub indexFloat (some (index : ℚ))
  match LABHUE_HUES.get? index, LABHUE_HUES.get? (index + 1) with
  | some a, some b =>
    some ⟨l, c, fadd (some a) (fmul (fsub (some b) (some a)) indexRemainder)⟩
  | _, _ => none

/-- The finalization of src/main.rs lines 379-381 over `FV`:
`fatan2` and `fdeg` are `f32::atan2` and `f32::to_degrees`. -/
def finalizeLchF (fatan2 : FV → FV → FV) (fdeg : FV → FV) (a : AccF) : Option LchF :=
  let angleDegrees := fdeg (fatan2 (fdiv a.hy a.volume) (fdiv a.hx a.volume))
  let hueRaw := fmodF (fadd (fdiv (fmul angleDegrees (some 100)) (some 360)) (some 100)) (some 100)
  toApproximateLchF hueRaw (fdiv a.v a.volume) (fdiv a.c a.volume)

/-- One pass of the loop body's chroma shrink (src/main.rs line 392). -/
def shrinkChroma (lch : LchF) : LchF :=
  ⟨lch.l, fmul lch.c (some (99 / 100)), lch.h⟩

/-- The gamut-reduction loop over `FV` with a fuel bound; `none` means
the loop has not exited within `fuel` iterations. -/
def gamutReduceF (conv : LchF → SrgbF) : Nat → LchF → Option SrgbF
  | 0, _ => none
  | fuel + 1, lch =>
    if withinBounds (conv lch) then some (conv lch)
    else gamutReduceF conv fuel (shrinkChroma lch)

end NanModel

/-- Proof-infrastructure form of the inner write loop of `fillDecl`:
the same fold, over an arbitrary cell list and abstract index map. -/
def writeCells (idx : Nat × Nat × Nat → Nat) (id : Nat) (t : Nat → Nat)
    (l : List (Nat × Nat × Nat)) : Except ValidateErr (Nat → Nat) :=
  l.foldlM
    (fun t cell =>
      if t (idx cell) ≠ 0 then
        Except.error (.overlap (t (idx cell)) id cell.1 cell.2.1 cell.2.2)
      else
        Except.ok (Function.update t (idx cell) id))
    t

/-- Proof-infrastructure form of the successful write: store `id` at
the index of every cell of the list. -/
def bulkWrite (idx : Nat × Nat × Nat → Nat) (id : Nat) (t : Nat → Nat)
    (l : List (Nat × Nat × Nat)) : Nat → Nat :=
  l.foldl (fun t cell => Function.update t (idx cell) id) t

/-- Proof-infrastructure invariant relating the occupancy table to a
processed prefix of the declarations: every table coordinate is either
unwritten and unclaimed, or claimed exactly once, holding the id of
the (unique) claiming declaration. -/
def TableInv (huesLen chromasLen valuesLen : Nat) (decls : List RangeDecl)
    (t : Nat → Nat) : Prop :=
  ∀ cell ∈ allCells huesLen chromasLen valuesLen,
    (t (idxU huesLen chromasLen valuesLen cell) = 0 ∧ claimCount huesLen decls cell = 0) ∨
    (claimCount huesLen decls cell = 1 ∧
      ∃ i, ∃ hi : i < decls.length, cell ∈ declCells huesLen decls[i] ∧
        t (idxU huesLen chromasLen valuesLen cell) = decls[i].color_id)

/-! ## Supporting lemmas -/

/-- The source's adjacent-pairs check accepts exactly the non-strictly
increasing lists. -/
theorem isSortedList_iff_chain : ∀ xs : List ℚ, isSortedList xs = true ↔ xs.Chain' (· ≤ ·)
  | [] => by simp [isSortedList]
  | [a] => by simp [isSortedList]
  | a :: b :: t => by
    rw [isSortedList, List.chain'_cons, Bool.and_eq_true, decide_eq_true_eq,
      isSortedList_iff_chain (b :: t)]


/-- Membership in the gap-scan cell enumeration is exactly being a
coordinate of the occupancy table. -/
theorem mem_allCells {huesLen chromasLen valuesLen : Nat} {cell : Nat × Nat × Nat} :
    cell ∈ allCells huesLen chromasLen valuesLen ↔
      cell.1 < huesLen ∧ cell.2.1 < chromasLen - 1 ∧ cell.2.2 < valuesLen - 1 := by
  obtain ⟨h, c, v⟩ := cell
  simp only [allCells, List.mem_flatMap, List.mem_map, List.mem_range, Prod.mk.injEq]
  constructor
  · rintro ⟨h1, hh1, c1, hc1, v1, hv1, rfl, rfl, rfl⟩
    exact ⟨hh1, hc1, hv1⟩
  · rintro ⟨hh, hc, hv⟩
    exact ⟨h, hh, c, hc, v, hv, rfl, rfl, rfl⟩

/-- Membership in a declaration's cell list. -/
theorem mem_declCells {huesLen : Nat} {d : RangeDecl} {cell : Nat × Nat × Nat} :
    cell ∈ declCells huesLen d ↔
      ∃ h, d.hue_begin ≤ h ∧ h < hueLogicalEnd huesLen d ∧
        ∃ c, d.chroma_begin ≤ c ∧ c < d.chroma_end ∧
          ∃ v, d.value_begin ≤ v ∧ v < d.value_end ∧ cell = (h % huesLen, c, v) := by
  simp only [declCells, List.mem_flatMap, List.mem_map, List.mem_range'_1]
  constructor
  · rintro ⟨h, ⟨hh1, hh2⟩, c, ⟨hc1, hc2⟩, v, ⟨hv1, hv2⟩, rfl⟩
    exact ⟨h, hh1, by omega, c, hc1, by omega, v, hv1, by omega, rfl⟩
  · rintro ⟨h, hh1, hh2, c, hc1, hc2, v, hv1, hv2, rfl⟩
    exact ⟨h, ⟨hh1, by omega⟩, c, ⟨hc1, by omega⟩, v, ⟨hv1, by omega⟩, rfl⟩

/-- Every cell claimed by a well-formed declaration is a table
coordinate. -/
theorem declCells_subset_allCells {huesLen chromasLen valuesLen : Nat} {d : RangeDecl}
    (hwf : DeclWF huesLen chromasLen valuesLen d) {cell : Nat × Nat × Nat}
    (hc : cell ∈ declCells huesLen d) :
    cell ∈ allCells huesLen chromasLen valuesLen := by
  obtain ⟨hid, hb, he, hcb, hce, hvb, hve⟩ := hwf
  rw [mem_declCells] at hc
  obtain ⟨h, _, _, c, _, hc2, v, _, hv2, rfl⟩ := hc
  rw [mem_allCells]
  refine ⟨Nat.mod_lt _ (by omega), ?_, ?_⟩
  · show c < chromasLen - 1
    omega
  · show v < valuesLen - 1
    omega

/-- On table coordinates the unwrapped index closure is the plain
flattening formula. -/
theorem idxU_eq {huesLen chromasLen valuesLen : Nat} {cell : Nat × Nat × Nat}
    (hcell : cell ∈ allCells huesLen chromasLen valuesLen) :
    idxU huesLen chromasLen valuesLen cell =
      cell.1 * ((chromasLen - 1) * (valuesLen - 1)) + cell.2.1 * (valuesLen - 1) + cell.2.2 := by
  rw [mem_allCells] at hcell
  obtain ⟨h1, h2, h3⟩ := hcell
  unfold idxU indexFn
  rw [if_neg (by omega), if_neg (by omega), if_neg (by omega)]
  rfl

/-- Bound for the chroma-value slice of the flattening formula. -/
theorem inner_lt {c v C V : Nat} (hc : c < C) (hv : v < V) : c * V + v < C * V :=
  calc c * V + v < c * V + V := by omega
  _ = (c + 1) * V := by ring
  _ ≤ C * V := Nat.mul_le_mul_right V (by omega)

/-- Uniqueness of quotient and remainder for the flattening
formula. -/
theorem flat_pair_inj {A x y r s : Nat} (hr : r < A) (hs : s < A)
    (he : x * A + r = y * A + s) : x = y ∧ r = s := by
  have hA : 0 < A := by omega
  have dx : (x * A + r) / A = x := by
    rw [Nat.mul_comm, Nat.mul_add_div hA, Nat.div_eq_of_lt hr, Nat.add_zero]
  have dy : (y * A + s) / A = y := by
    rw [Nat.mul_comm, Nat.mul_add_div hA, Nat.div_eq_of_lt hs, Nat.add_zero]
  have hxy : x = y := by rw [← dx, ← dy, he]
  subst hxy
  refine ⟨rfl, ?_⟩
  have := Nat.add_left_cancel he
  omega

/-- The flattened index is injective on table coordinates. -/
theorem idxU_inj {huesLen chromasLen valuesLen : Nat} {a b : Nat × Nat × Nat}
    (ha : a ∈ allCells huesLen chromasLen valuesLen)
    (hb : b ∈ allCells huesLen chromasLen valuesLen)
    (he : idxU huesLen chromasLen valuesLen a = idxU huesLen chromasLen valuesLen b) :
    a = b := by
  rw [idxU_eq ha, idxU_eq hb] at he
  rw [mem_allCells] at ha hb
  obtain ⟨a1, a2, a3⟩ := a
  obtain ⟨b1, b2, b3⟩ := b
  obtain ⟨ha1, ha2, ha3⟩ := ha
  obtain ⟨hb1, hb2, hb3⟩ := hb
  simp only at he ha1 ha2 ha3 hb1 hb2 hb3
  rw [Nat.add_assoc, Nat.add_assoc] at he
  obtain ⟨e1, e2⟩ := flat_pair_inj (inner_lt ha2 ha3) (inner_lt hb2 hb3) he
  obtain ⟨e3, e4⟩ := flat_pair_inj ha3 hb3 e2
  simp [e1, e3, e4]


/-- The span of a well-formed declaration's hue range is at most the
number of hues. -/
theorem hueSpan_le {huesLen chromasLen valuesLen : Nat} {d : RangeDecl}
    (hwf : DeclWF huesLen chromasLen valuesLen d) :
    hueLogicalEnd huesLen d - d.hue_begin ≤ huesLen := by
  obtain ⟨-, hb, he, -, -, -, -⟩ := hwf
  unfold hueLogicalEnd
  split <;> omega

/-- The cell list of a well-formed declaration has no duplicates: the
hue indices of one declaration are distinct modulo `hues.len()`, and
the chroma/value grid of each hue plane is a plain product. -/
theorem declCells_nodup {huesLen chromasLen valuesLen : Nat} {d : RangeDecl}
    (hwf : DeclWF huesLen chromasLen valuesLen d) :
    (declCells huesLen d).Nodup := by
  have hspan := hueSpan_le hwf
  obtain ⟨-, hb, hhe, -, -, -, -⟩ := hwf
  unfold declCells
  rw [List.nodup_flatMap]
  constructor
  · intro h hh
    rw [List.nodup_flatMap]
    constructor
    · intro c hc
      refine List.Nodup.map ?_ (List.nodup_range' _ _)
      intro v1 v2 e
      simpa using e
    · refine (List.nodup_range' _ _).imp ?_
      intro c1 c2 hne a m1 m2
      simp only [List.mem_map] at m1 m2
      obtain ⟨v1, -, rfl⟩ := m1
      obtain ⟨v2, -, e⟩ := m2
      exact hne (congrArg (fun p => p.2.1) e).symm
  · have hpw : List.Pairwise (· ≠ ·)
        (List.range' d.hue_begin (hueLogicalEnd huesLen d - d.hue_begin)) :=
      List.nodup_range' _ _
    refine hpw.imp_of_mem ?_
    intro h1 h2 m1 m2 hne
    rw [List.mem_range'_1] at m1 m2
    have hmod : h1 % huesLen ≠ h2 % huesLen := by
      intro e
      rcases Nat.lt_or_ge h1 h2 with hlt | hge
      · have hdvd : huesLen ∣ h2 - h1 := (Nat.modEq_iff_dvd' (le_of_lt hlt)).mp e
        have := Nat.le_of_dvd (by omega) hdvd
        omega
      · have hlt2 : h2 < h1 := by omega
        have hdvd : huesLen ∣ h1 - h2 := (Nat.modEq_iff_dvd' (le_of_lt hlt2)).mp e.symm
        have := Nat.le_of_dvd (by omega) hdvd
        omega
    intro a m1' m2'
    simp only [List.mem_flatMap, List.mem_map] at m1' m2'
    obtain ⟨c1, -, v1, -, rfl⟩ := m1'
    obtain ⟨c2, -, v2, -, e⟩ := m2'
    exact hmod (congrArg (fun p => p.1) e).symm

/-- Distinct cells of one well-formed declaration have distinct table
offsets. -/
theorem declCells_pairwise_idx {huesLen chromasLen valuesLen : Nat} {d : RangeDecl}
    (hwf : DeclWF huesLen chromasLen valuesLen d) :
    (declCells huesLen d).Pairwise
      (fun a b => idxU huesLen chromasLen valuesLen a ≠ idxU huesLen chromasLen valuesLen b) := by
  have hnd : List.Pairwise (· ≠ ·) (declCells huesLen d) := declCells_nodup hwf
  refine hnd.imp_of_mem ?_
  intro a b ha hb hne he
  exact hne (idxU_inj (declCells_subset_allCells hwf ha) (declCells_subset_allCells hwf hb) he)

/-- Writing a cell list with pairwise-distinct offsets into the table
either succeeds — all touched offsets were zero, and the result is the
bulk update — or fails with an overlap error whose reported occupant,
id and coordinate come from an actual cell of the list whose offset
was non-zero. -/
theorem writeCells_spec (idx : Nat × Nat × Nat → Nat) (id : Nat) :
    ∀ (l : List (Nat × Nat × Nat)) (t : Nat → Nat),
      l.Pairwise (fun a b => idx a ≠ idx b) →
      ((∀ c ∈ l, t (idx c) = 0) ∧
          writeCells idx id t l = .ok (bulkWrite idx id t l))
      ∨ (∃ c ∈ l, t (idx c) ≠ 0 ∧
          writeCells idx id t l =
            .error (.overlap (t (idx c)) id c.1 c.2.1 c.2.2))
  | [], t, _ => .inl ⟨by simp, rfl⟩
  | c0 :: l, t, hpw => by
    have hpt := hpw.of_cons
    have hhd : ∀ c ∈ l, idx c ≠ idx c0 := by
      intro c hc e
      exact (List.rel_of_pairwise_cons hpw hc) e.symm
    by_cases h0 : t (idx c0) = 0
    · have hstep : writeCells idx id t (c0 :: l) =
          writeCells idx id (Function.update t (idx c0) id) l := by
        simp only [writeCells, List.foldlM_cons, h0, ne_eq, not_true_eq_false, if_false,
          not_false_eq_true, ite_false, ite_true]
        rfl
      have hbw : bulkWrite idx id t (c0 :: l) =
          bulkWrite idx id (Function.update t (idx c0) id) l := rfl
      rcases writeCells_spec idx id l (Function.update t (idx c0) id) hpt with
        ⟨hz, he⟩ | ⟨c, hc, hne, he⟩
      · left
        refine ⟨?_, by rw [hstep, he, hbw]⟩
        intro c hc
        rcases List.mem_cons.mp hc with rfl | hc
        · exact h0
        · have := hz c hc
          rwa [Function.update_noteq (hhd c hc)] at this
      · right
        have hval : Function.update t (idx c0) id (idx c) = t (idx c) :=
          Function.update_noteq (hhd c hc) _ _
        refine ⟨c, List.mem_cons_of_mem _ hc, by rwa [hval] at hne, ?_⟩
        rw [hstep, he, hval]
    · right
      refine ⟨c0, List.mem_cons_self _ _, h0, ?_⟩
      simp only [writeCells, List.foldlM_cons]
      rw [if_pos h0]
      rfl

/-- Offsets not touched by a bulk write keep their value. -/
theorem bulkWrite_notin (idx : Nat × Nat × Nat → Nat) (id : Nat) :
    ∀ (l : List (Nat × Nat × Nat)) (t : Nat → Nat) (i : Nat),
      (∀ c ∈ l, idx c ≠ i) → bulkWrite idx id t l i = t i
  | [], _, _, _ => rfl
  | c0 :: l, t, i, hni => by
    have hstep : bulkWrite idx id t (c0 :: l) i =
        bulkWrite idx id (Function.update t (idx c0) id) l i := rfl
    rw [hstep, bulkWrite_notin idx id l _ i (fun c hc => hni c (List.mem_cons_of_mem _ hc)),
      Function.update_noteq (hni c0 (List.mem_cons_self _ _)).symm]

/-- A bulk write stores the id at the offset of every written cell. -/
theorem bulkWrite_mem (idx : Nat × Nat × Nat → Nat) (id : Nat) :
    ∀ (l : List (Nat × Nat × Nat)) (t : Nat → Nat) (c : Nat × Nat × Nat),
      l.Pairwise (fun a b => idx a ≠ idx b) → c ∈ l →
      bulkWrite idx id t l (idx c) = id
  | c0 :: l, t, c, hpw, hmem => by
    rcases List.mem_cons.mp hmem with rfl | hc
    · have hstep : bulkWrite idx id t (c :: l) (idx c) =
          bulkWrite idx id (Function.update t (idx c) id) l (idx c) := rfl
      rw [hstep, bulkWrite_notin idx id l _ (idx c)
        (fun c' hc' e => (List.rel_of_pairwise_cons hpw hc') e.symm),
        Function.update_same]
    · exact bulkWrite_mem idx id l _ c hpw.of_cons hc

/-- `fillDecl` in terms of the abstract write loop. -/
theorem fillDecl_eq_writeCells {huesLen chromasLen valuesLen : Nat} (t : Nat → Nat)
    (d : RangeDecl) :
    fillDecl huesLen chromasLen valuesLen t d =
      writeCells (idxU huesLen chromasLen valuesLen) d.color_id t (declCells huesLen d) := rfl


/-- Count of a member of a duplicate-free list, for any lawful
boolean equality. -/
theorem count_eq_one_of_nodup_mem {α : Type} [BEq α] [LawfulBEq α] :
    ∀ {l : List α} {a : α}, l.Nodup → a ∈ l → l.count a = 1
  | x :: l, a, hnd, hmem => by
    have hx : x ∉ l := (List.nodup_cons.mp hnd).1
    have hl : l.Nodup := (List.nodup_cons.mp hnd).2
    rcases List.mem_cons.mp hmem with rfl | hc
    · rw [List.count_cons_self, List.count_eq_zero.mpr hx]
    · have hne : a ≠ x := fun e => hx (e ▸ hc)
      rw [List.count_cons_of_ne hne, count_eq_one_of_nodup_mem hl hc]

/-- Claim counts add over concatenation of declaration lists. -/
theorem claimCount_append (huesLen : Nat) (l1 l2 : List RangeDecl) (cell : Nat × Nat × Nat) :
    claimCount huesLen (l1 ++ l2) cell =
      claimCount huesLen l1 cell + claimCount huesLen l2 cell := by
  simp [claimCount, List.map_append, List.sum_append]

/-- Claim count of a single declaration. -/
theorem claimCount_singleton (huesLen : Nat) (d : RangeDecl) (cell : Nat × Nat × Nat) :
    claimCount huesLen [d] cell = (declCells huesLen d).count cell := by
  simp [claimCount]

/-- A cell has claim count zero exactly when no declaration claims
it. -/
theorem claimCount_eq_zero_iff (huesLen : Nat) (decls : List RangeDecl)
    (cell : Nat × Nat × Nat) :
    claimCount huesLen decls cell = 0 ↔ ∀ d ∈ decls, cell ∉ declCells huesLen d := by
  rw [claimCount, List.sum_eq_zero_iff]
  constructor
  · intro hz d hd hc
    have := hz _ (List.mem_map_of_mem _ hd)
    rw [List.count_eq_zero] at this
    exact this hc
  · intro hnd x hx
    obtain ⟨d, hd, rfl⟩ := List.mem_map.mp hx
    rw [List.count_eq_zero]
    exact hnd d hd

/-- Every entry of a list of naturals is at most the sum. -/
theorem get_le_sum : ∀ (l : List Nat) (i : Nat) (h : i < l.length), l[i] ≤ l.sum
  | a :: l, 0, _ => by simp
  | a :: l, i + 1, h => by
    have := get_le_sum l i (by simpa using h)
    simp only [List.getElem_cons_succ, List.sum_cons]
    omega

/-- Two distinct entries of a list of naturals together are at most
the sum. -/
theorem two_get_le_sum :
    ∀ (l : List Nat) (i j : Nat) (hi : i < l.length) (hj : j < l.length), i < j →
      l[i] + l[j] ≤ l.sum
  | a :: l, 0, j + 1, hi, hj, _ => by
    have := get_le_sum l j (by simpa using hj)
    simp only [List.getElem_cons_zero, List.getElem_cons_succ, List.sum_cons]
    omega
  | a :: l, i + 1, j + 1, hi, hj, hij => by
    have := two_get_le_sum l i j (by simpa using hi) (by simpa using hj) (by omega)
    simp only [List.getElem_cons_succ, List.sum_cons]
    omega

/-- Two declarations (given by distinct positions) claiming the same
cell force a claim count of at least two. -/
theorem claimCount_two_le {huesLen : Nat} {decls : List RangeDecl} {cell : Nat × Nat × Nat}
    {i j : Nat} (hi : i < decls.length) (hj : j < decls.length) (hij : i < j)
    (h1 : cell ∈ declCells huesLen decls[i]) (h2 : cell ∈ declCells huesLen decls[j]) :
    2 ≤ claimCount huesLen decls cell := by
  have hlen : (decls.map fun d => (declCells huesLen d).count cell).length = decls.length :=
    List.length_map _ _
  have hsum := two_get_le_sum (decls.map fun d => (declCells huesLen d).count cell) i j
    (by omega) (by omega) hij
  rw [List.getElem_map, List.getElem_map] at hsum
  have p1 : 0 < (declCells huesLen decls[i]).count cell := List.count_pos_iff.mpr h1
  have p2 : 0 < (declCells huesLen decls[j]).count cell := List.count_pos_iff.mpr h2
  unfold claimCount
  omega

/-- The all-zero table is a valid starting point. -/
theorem tableInv_nil (huesLen chromasLen valuesLen : Nat) :
    TableInv huesLen chromasLen valuesLen [] (fun _ => 0) := by
  intro cell hcell
  left
  exact ⟨rfl, by simp [claimCount]⟩

/-- Writing one well-formed declaration into a table all of whose
claimed offsets are still zero preserves the invariant, extending the
processed prefix by that declaration. -/
theorem tableInv_step {huesLen chromasLen valuesLen : Nat} {processed : List RangeDecl}
    {t : Nat → Nat} {d : RangeDecl}
    (hwfp : ∀ d' ∈ processed, DeclWF huesLen chromasLen valuesLen d')
    (hwf : DeclWF huesLen chromasLen valuesLen d)
    (hinv : TableInv huesLen chromasLen valuesLen processed t)
    (hz : ∀ c ∈ declCells huesLen d, t (idxU huesLen chromasLen valuesLen c) = 0) :
    TableInv huesLen chromasLen valuesLen (processed ++ [d])
      (bulkWrite (idxU huesLen chromasLen valuesLen) d.color_id t (declCells huesLen d)) := by
  intro cell hcell
  have hpw := declCells_pairwise_idx hwf
  by_cases hmem : cell ∈ declCells huesLen d
  · right
    have hc0 : claimCount huesLen processed cell = 0 := by
      rcases hinv cell hcell with ⟨-, h⟩ | ⟨-, i, hi, hci, hti⟩
      · exact h
      · exfalso
        have hid := (hwfp _ (List.getElem_mem hi)).1
        rw [hz cell hmem] at hti
        omega
    have hcnt1 : (declCells huesLen d).count cell = 1 :=
      count_eq_one_of_nodup_mem (declCells_nodup hwf) hmem
    refine ⟨by rw [claimCount_append, hc0, claimCount_singleton, hcnt1], ?_⟩
    refine ⟨processed.length, by simp, ?_, ?_⟩
    · rw [List.getElem_concat_length _ _ _ rfl]
      exact hmem
    · rw [List.getElem_concat_length _ _ _ rfl]
      exact bulkWrite_mem _ _ _ _ _ hpw hmem
  · have hval : bulkWrite (idxU huesLen chromasLen valuesLen) d.color_id t
        (declCells huesLen d) (idxU huesLen chromasLen valuesLen cell) =
        t (idxU huesLen chromasLen valuesLen cell) := by
      refine bulkWrite_notin _ _ _ _ _ ?_
      intro c hc e
      exact hmem
        (idxU_inj (declCells_subset_allCells hwf hc) hcell e ▸ hc)
    have hcd : (declCells huesLen d).count cell = 0 := List.count_eq_zero.mpr hmem
    have hcc : claimCount huesLen (processed ++ [d]) cell = claimCount huesLen processed cell := by
      rw [claimCount_append, claimCount_singleton, hcd, Nat.add_zero]
    rcases hinv cell hcell with ⟨h1, h2⟩ | ⟨h1, i, hi, hci, hti⟩
    · left
      exact ⟨by rw [hval]; exact h1, by rw [hcc]; exact h2⟩
    · right
      refine ⟨by rw [hcc]; exact h1, i, by simp; omega, ?_, ?_⟩
      · rw [List.getElem_append_left hi]
        exact hci
      · rw [List.getElem_append_left hi, hval]
        exact hti


/-- Processing a list of declarations from a table satisfying the
invariant either succeeds, preserving the invariant for the extended
prefix, or fails with an overlap error whose reported occupant id, new
id and coordinate identify two declarations (at distinct positions of
the full list) that both claim the reported cell. -/
theorem fillAll_cases {huesLen chromasLen valuesLen : Nat} :
    ∀ (rest processed : List RangeDecl) (t : Nat → Nat),
      (∀ d ∈ processed ++ rest, DeclWF huesLen chromasLen valuesLen d) →
      TableInv huesLen chromasLen valuesLen processed t →
      (∃ t', rest.foldlM (fillDecl huesLen chromasLen valuesLen) t = .ok t' ∧
          TableInv huesLen chromasLen valuesLen (processed ++ rest) t')
      ∨ (∃ o n h c v,
          rest.foldlM (fillDecl huesLen chromasLen valuesLen) t =
            .error (.overlap o n h c v) ∧
          (h, c, v) ∈ allCells huesLen chromasLen valuesLen ∧
          ∃ i j, ∃ hi : i < (processed ++ rest).length,
            ∃ hj : j < (processed ++ rest).length, i < j ∧
            (h, c, v) ∈ declCells huesLen (processed ++ rest)[i] ∧
            ((processed ++ rest)[i]).color_id = o ∧
            (h, c, v) ∈ declCells huesLen (processed ++ rest)[j] ∧
            ((processed ++ rest)[j]).color_id = n)
  | [], processed, t, hwf, hinv => .inl ⟨t, rfl, by simpa using hinv⟩
  | d :: rest, processed, t, hwf, hinv => by
    have hwfd : DeclWF huesLen chromasLen valuesLen d := hwf d (by simp)
    have hwfp : ∀ d' ∈ processed, DeclWF huesLen chromasLen valuesLen d' :=
      fun d' hd' => hwf d' (by simp [hd'])
    have happ : (processed ++ [d]) ++ rest = processed ++ d :: rest := by
      rw [List.append_assoc]
      rfl
    rcases writeCells_spec (idxU huesLen chromasLen valuesLen) d.color_id
        (declCells huesLen d) t (declCells_pairwise_idx hwfd) with
      ⟨hz, hok⟩ | ⟨cell, hcmem, hcne, herr⟩
    · have hstep : (d :: rest).foldlM (fillDecl huesLen chromasLen valuesLen) t =
          rest.foldlM (fillDecl huesLen chromasLen valuesLen)
            (bulkWrite (idxU huesLen chromasLen valuesLen) d.color_id t
              (declCells huesLen d)) := by
        rw [List.foldlM_cons, fillDecl_eq_writeCells, hok]
        rfl
      have hwf' : ∀ d' ∈ (processed ++ [d]) ++ rest,
          DeclWF huesLen chromasLen valuesLen d' := by
        rw [happ]
        exact hwf
      have hinv' := tableInv_step hwfp hwfd hinv hz
      rcases fillAll_cases rest (processed ++ [d]) _ hwf' hinv' with
        ⟨t', he, hti⟩ | ⟨o, n, h, c, v, he, hcell, hrep⟩
      · left
        refine ⟨t', by rw [hstep]; exact he, ?_⟩
        rw [← happ]
        exact hti
      · right
        refine ⟨o, n, h, c, v, by rw [hstep]; exact he, hcell, ?_⟩
        rw [← happ]
        exact hrep
    · right
      have hstep : (d :: rest).foldlM (fillDecl huesLen chromasLen valuesLen) t =
          .error (.overlap (t (idxU huesLen chromasLen valuesLen cell)) d.color_id
            cell.1 cell.2.1 cell.2.2) := by
        rw [List.foldlM_cons, fillDecl_eq_writeCells, herr]
        rfl
      have hcall : cell ∈ allCells huesLen chromasLen valuesLen :=
        declCells_subset_allCells hwfd hcmem
      rcases hinv cell hcall with ⟨h0, -⟩ | ⟨-, i, hi, hci, hti⟩
      · exact absurd h0 hcne
      · refine ⟨t (idxU huesLen chromasLen valuesLen cell), d.color_id,
          cell.1, cell.2.1, cell.2.2, hstep, hcall, i, processed.length,
          by simp only [List.length_append, List.length_cons]; omega,
          by simp only [List.length_append, List.length_cons]; omega,
          by omega, ?_, ?_, ?_, ?_⟩
        · rw [List.getElem_append_left hi]
          exact hci
        · rw [List.getElem_append_left hi]
          exact hti.symm
        · rw [List.getElem_append_right (le_refl _)]
          simpa using hcmem
        · rw [List.getElem_append_right (le_refl _)]
          simp


/-- C1: for well-formed resolved declarations, `validate_blocks`
succeeds exactly when the declarations claim every cell of the
occupancy table exactly once; on success it returns one block per
declaration; a reported overlap names the two claiming declarations'
ids and a genuinely doubly-claimed coordinate, and any overlap forces
an overlap failure; a reported gap names a coordinate claimed by no
declaration. -/
theorem validate_blocks_spec (huesLen chromasLen valuesLen : Nat) (decls : List RangeDecl)
    (hwf : ∀ d ∈ decls, DeclWF huesLen chromasLen valuesLen d) :
    ((∃ bs, validateBlocks huesLen chromasLen valuesLen decls = .ok bs) ↔
        ExactCover huesLen chromasLen valuesLen decls) ∧
    (∀ bs, validateBlocks huesLen chromasLen valuesLen decls = .ok bs →
        bs.length = decls.length) ∧
    (∀ o n h c v,
        validateBlocks huesLen chromasLen valuesLen decls = .error (.overlap o n h c v) →
        (h, c, v) ∈ allCells huesLen chromasLen valuesLen ∧
        ∃ i j, ∃ hi : i < decls.length, ∃ hj : j < decls.length, i < j ∧
          (h, c, v) ∈ declCells huesLen decls[i] ∧ decls[i].color_id = o ∧
          (h, c, v) ∈ declCells huesLen decls[j] ∧ decls[j].color_id = n) ∧
    ((∃ cell ∈ allCells huesLen chromasLen valuesLen,
        2 ≤ claimCount huesLen decls cell) →
      ∃ o n h c v,
        validateBlocks huesLen chromasLen valuesLen decls = .error (.overlap o n h c v)) ∧
    (∀ h c v, validateBlocks huesLen chromasLen valuesLen decls = .error (.gap h c v) →
        (h, c, v) ∈ allCells huesLen chromasLen valuesLen ∧
        ∀ d ∈ decls, (h, c, v) ∉ declCells huesLen d) := by
  rcases fillAll_cases decls [] (fun _ => 0) (by simpa using hwf)
      (tableInv_nil huesLen chromasLen valuesLen) with
    ⟨t, hok, hinv⟩ | ⟨o, n, h, c, v, herr, hcell, hrep⟩
  · simp only [List.nil_append] at hinv
    have hV : validateBlocks huesLen chromasLen valuesLen decls =
        (match (allCells huesLen chromasLen valuesLen).find?
            (fun cell => t (idxU huesLen chromasLen valuesLen cell) == 0) with
        | some cell => Except.error (.gap cell.1 cell.2.1 cell.2.2)
        | none => pure (decls.map toColorBlock)) := by
      unfold validateBlocks
      rw [hok]
      rfl
    rcases hfind : (allCells huesLen chromasLen valuesLen).find?
        (fun cell => t (idxU huesLen chromasLen valuesLen cell) == 0) with - | cell
    · have hVok : validateBlocks huesLen chromasLen valuesLen decls =
          .ok (decls.map toColorBlock) := by
        rw [hV, hfind]
        rfl
      have hcover : ExactCover huesLen chromasLen valuesLen decls := by
        intro cell hc
        have hne := List.find?_eq_none.mp hfind cell hc
        rcases hinv cell hc with ⟨h0, -⟩ | ⟨h1, -⟩
        · exact absurd (by simp [h0]) hne
        · exact h1
      refine ⟨⟨fun _ => hcover, fun _ => ⟨_, hVok⟩⟩, ?_, ?_, ?_, ?_⟩
      · intro bs hbs
        rw [hVok] at hbs
        obtain rfl := (Except.ok.inj hbs)
        simp
      · intro o n h c v he
        rw [hVok] at he
        simp at he
      · rintro ⟨cell, hc, h2⟩
        have := hcover cell hc
        omega
      · intro h c v he
        rw [hVok] at he
        simp at he
    · have hVgap : validateBlocks huesLen chromasLen valuesLen decls =
          .error (.gap cell.1 cell.2.1 cell.2.2) := by
        rw [hV, hfind]
      have h0 : t (idxU huesLen chromasLen valuesLen cell) = 0 := by
        simpa using List.find?_some hfind
      have hmemc : cell ∈ allCells huesLen chromasLen valuesLen :=
        List.mem_of_find?_eq_some hfind
      have hcnt0 : claimCount huesLen decls cell = 0 := by
        rcases hinv cell hmemc with ⟨-, hz⟩ | ⟨-, i, hi, hci, hti⟩
        · exact hz
        · exfalso
          have hid := (hwf _ (List.getElem_mem hi)).1
          omega
      have hnotcover : ¬ ExactCover huesLen chromasLen valuesLen decls := by
        intro hec
        have := hec cell hmemc
        omega
      refine ⟨⟨?_, fun hec => absurd hec hnotcover⟩, ?_, ?_, ?_, ?_⟩
      · rintro ⟨bs, hbs⟩
        rw [hVgap] at hbs
        simp at hbs
      · intro bs hbs
        rw [hVgap] at hbs
        simp at hbs
      · intro o n h c v he
        rw [hVgap] at he
        simp at he
      · rintro ⟨cell', hc', h2⟩
        exfalso
        rcases hinv cell' hc' with ⟨-, hz⟩ | ⟨h1, -⟩ <;> omega
      · intro h c v he
        rw [hVgap] at he
        simp only [Except.error.injEq, ValidateErr.gap.injEq] at he
        obtain ⟨rfl, rfl, rfl⟩ := he
        refine ⟨hmemc, ?_⟩
        intro d hd hmem
        exact (claimCount_eq_zero_iff _ _ _).mp hcnt0 d hd hmem
  · simp only [List.nil_append] at hrep
    have hVerr : validateBlocks huesLen chromasLen valuesLen decls =
        .error (.overlap o n h c v) := by
      unfold validateBlocks
      rw [herr]
      rfl
    have hnotcover : ¬ ExactCover huesLen chromasLen valuesLen decls := by
      intro hec
      obtain ⟨i, j, hi, hj, hij, m1, e1, m2, e2⟩ := hrep
      have h2 := claimCount_two_le hi hj hij m1 m2
      have := hec (h, c, v) hcell
      omega
    refine ⟨⟨?_, fun hec => absurd hec hnotcover⟩, ?_, ?_, ?_, ?_⟩
    · rintro ⟨bs, hbs⟩
      rw [hVerr] at hbs
      simp at hbs
    · intro bs hbs
      rw [hVerr] at hbs
      simp at hbs
    · intro o' n' h' c' v' he
      rw [hVerr] at he
      simp only [Except.error.injEq, ValidateErr.overlap.injEq] at he
      obtain ⟨rfl, rfl, rfl, rfl, rfl⟩ := he
      exact ⟨hcell, hrep⟩
    · intro _
      exact ⟨o, n, h, c, v, hVerr⟩
    · intro h' c' v' he
      rw [hVerr] at he
      simp at he


/-- C1 (witness): a 2-hue, 1-chroma-cell, 1-value-cell table exactly
tiled by two declarations (the second wrapping around the hue circle);
validation succeeds. -/
theorem validate_blocks_spec_witness :
    ExactCover 2 2 2 [⟨1, 0, 1, 0, 1, 0, 1⟩, ⟨2, 1, 0, 0, 1, 0, 1⟩] ∧
    ∃ bs, validateBlocks 2 2 2 [⟨1, 0, 1, 0, 1, 0, 1⟩, ⟨2, 1, 0, 0, 1, 0, 1⟩] = .ok bs :=
  ⟨by decide,
    (validate_blocks_spec 2 2 2 [⟨1, 0, 1, 0, 1, 0, 1⟩, ⟨2, 1, 0, 0, 1, 0, 1⟩]
      (by decide)).1.mpr (by decide)⟩


/-- The complex number with coordinates `(cos θ, sin θ)` is the point
at angle `θ` on the unit circle. -/
theorem arg_cos_sin_mk (θ : ℝ) :
    (⟨Real.cos θ, Real.sin θ⟩ : ℂ) = Complex.exp (θ * Complex.I) := by
  apply Complex.ext <;>
    simp [Complex.exp_ofReal_mul_I_re, Complex.exp_ofReal_mul_I_im]

/-- Negating the angle conjugates the unit-circle point, so the
absolute value of the recovered argument is unchanged. -/
theorem abs_arg_exp_neg (θ : ℝ) :
    |Complex.arg (Complex.exp (↑(-θ) * Complex.I))| =
      |Complex.arg (Complex.exp (↑θ * Complex.I))| := by
  have hconj : Complex.exp (↑(-θ) * Complex.I) =
      (starRingEnd ℂ) (Complex.exp (↑θ * Complex.I)) := by
    rw [← Complex.exp_conj]
    congr 1
    simp [Complex.conj_I]
  rw [hconj, Complex.arg_conj]
  by_cases h : (Complex.exp (↑θ * Complex.I)).arg = Real.pi <;> simp [h, abs_neg]

/-- `degree_diff` as the absolute argument of a unit-circle point,
scaled from radians to degrees. -/
theorem degree_diff_eq (x y : ℝ) :
    degree_diff x y =
      |Complex.arg (Complex.exp (↑(toRadiansR x - toRadiansR y) * Complex.I))| *
        (180 / Real.pi) := by
  unfold degree_diff atan2R toDegreesR
  dsimp only
  rw [arg_cos_sin_mk, abs_mul, abs_of_pos (by positivity : (0 : ℝ) < 180 / Real.pi)]

/-- C8: `degree_diff` is symmetric in its two arguments and its result
always lies in `[0, 180]`. -/
theorem degree_diff_symm_and_range (a b : ℝ) :
    degree_diff a b = degree_diff b a ∧
      0 ≤ degree_diff a b ∧ degree_diff a b ≤ 180 := by
  refine ⟨?_, ?_, ?_⟩
  · rw [degree_diff_eq, degree_diff_eq]
    have hneg : toRadiansR b - toRadiansR a = -(toRadiansR a - toRadiansR b) := by ring
    rw [hneg, abs_arg_exp_neg]
  · rw [degree_diff_eq]
    positivity
  · rw [degree_diff_eq]
    have h1 : |Complex.arg (Complex.exp (↑(toRadiansR a - toRadiansR b) * Complex.I))| ≤
        Real.pi := Complex.abs_arg_le_pi _
    have h2 : (0 : ℝ) ≤ 180 / Real.pi := by positivity
    calc |Complex.arg (Complex.exp (↑(toRadiansR a - toRadiansR b) * Complex.I))| *
          (180 / Real.pi) ≤ Real.pi * (180 / Real.pi) := mul_le_mul_of_nonneg_right h1 h2
      _ = 180 := by field_simp


/-- C3 (amended): the accumulated signed area is the spec's annular
sector formula multiplied by the stray radians-to-degrees factor
`180 / pi` that the source applies to the already-in-degrees
`hue_delta`. -/
theorem area_eq_spec_area_scaled (hues chromas : List String) (b : ColorBlock) :
    areaOf hues chromas b = specArea hues chromas b * (180 / Real.pi) := by
  unfold areaOf specArea toDegreesR
  dsimp only
  ring

/-- C3 (counterexample): for a block spanning the 36-degree hue sector
from "5R" to "5YR" with chroma boundaries 0 and 1, the accumulated
area is `18 / pi`, not the `1 / 10` of the spec's formula. -/
theorem area_formula_counterexample :
    areaOf ["5R", "5YR"] ["0", "1", "INF"] ⟨1, 0, 1, 0, 1, 0, 1⟩ ≠
      specArea ["5R", "5YR"] ["0", "1", "INF"] ⟨1, 0, 1, 0, 1, 0, 1⟩ := by
  have hp0 : huespecToPoint "5R" = some 0 := by
    simp +decide [huespecToPoint, parseNum, findCode, LETTER_CODES, digitsVal,
      List.takeWhile, List.dropWhile, List.range, List.range.loop, List.find?,
      List.isPrefixOf]
    norm_num [fmodQ]
  have hp1 : huespecToPoint "5YR" = some 10 := by
    simp +decide [huespecToPoint, parseNum, findCode, LETTER_CODES, digitsVal,
      List.takeWhile, List.dropWhile, List.range, List.range.loop, List.find?,
      List.isPrefixOf]
    norm_num [fmodQ]
  have hd0 : hueDegOf ["5R", "5YR"] 0 = 0 := by
    unfold hueDegOf huePointOf
    simp [hp0]
  have hd1 : hueDegOf ["5R", "5YR"] 1 = 36 := by
    unfold hueDegOf huePointOf
    simp [hp1]
    norm_num
  have hcs : chromaStartQ ["0", "1", "INF"] ⟨1, 0, 1, 0, 1, 0, 1⟩ = 0 := by
    simp +decide [chromaStartQ, labelToQ, parseNum, digitsVal, List.takeWhile,
      List.dropWhile]
  have hce : chromaEndQ ["0", "1", "INF"] ⟨1, 0, 1, 0, 1, 0, 1⟩ = 1 := by
    simp +decide [chromaEndQ, deinfinite, labelToQ, parseNum, digitsVal,
      List.takeWhile, List.dropWhile]
  have hdelta : degree_diff 0 36 = 36 := by
    have hθ : toRadiansR 0 - toRadiansR 36 = -(Real.pi / 5) := by
      unfold toRadiansR
      ring
    unfold degree_diff atan2R
    dsimp only
    rw [hθ, arg_cos_sin_mk, Complex.exp_mul_I,
      Complex.arg_cos_add_sin_mul_I ⟨by linarith [Real.pi_pos], by linarith [Real.pi_pos]⟩]
    unfold toDegreesR
    have h36 : -(Real.pi / 5) * (180 / Real.pi) = -36 := by
      field_simp
      ring
    rw [h36]
    norm_num
  unfold areaOf specArea
  dsimp only
  rw [hd0, hd1, hdelta, hcs, hce]
  unfold toDegreesR
  push_cast
  intro he
  have hne := Real.pi_ne_zero
  field_simp at he
  nlinarith [Real.pi_pos, Real.pi_lt_d2]

/-- The 267-entry accumulator table keeps its size as blocks are
folded in. -/
theorem accumulate_length (hues chromas values : List String) (blocks : List ColorBlock) :
    (accumulate hues chromas values blocks).length = 267 := by
  unfold accumulate
  have h : ∀ (bs : List ColorBlock) (acc : List ColorAccumulator),
      (bs.foldl (accumulateBlock hues chromas values) acc).length = acc.length := by
    intro bs
    induction bs with
    | nil => intro acc; rfl
    | cons b bs ih =>
      intro acc
      rw [List.foldl_cons, ih]
      simp [accumulateBlock]
  rw [h, List.length_replicate]

/-- C4 (amended): `get_mean_colors` always returns exactly 267 colors
— one per entry of its fixed-size accumulator table — independently of
which region ids the blocks reference. -/
theorem get_mean_colors_length (conv : LchR → SrgbR) (fuel : Nat)
    (hues chromas values : List String) (blocks : List ColorBlock) :
    (getMeanColors conv fuel hues chromas values blocks).length = 267 := by
  unfold getMeanColors
  rw [List.length_map, accumulate_length]

/-- C4 (counterexample): a block list whose largest referenced region
id is 1 still yields 267 output entries, not 1. -/
theorem mean_colors_length_counterexample :
    maxColorId [⟨1, 0, 1, 0, 1, 0, 1⟩] = 1 ∧
    (getMeanColors (fun lch => ⟨lch.l, lch.l, lch.l⟩) 0 ["5R", "5YR"] ["0", "1", "INF"]
        ["0", "1", "INF"] [⟨1, 0, 1, 0, 1, 0, 1⟩]).length = 267 ∧
    (267 : Nat) ≠ 1 := by
  refine ⟨by decide, ?_, by decide⟩
  unfold getMeanColors
  rw [List.length_map, accumulate_length]


/-- `getD` of a replicated list is the replicated element whenever the
default coincides with it. -/
theorem getD_replicate_self {α : Type} (n i : Nat) (a : α) :
    (List.replicate n a).getD i a = a := by
  rw [List.getD_eq_getElem?_getD, List.getElem?_replicate]
  by_cases h : i < n <;> simp [h]

/-- Reading back the entry just written to the accumulator table. -/
theorem getD_set_self {α : Type} (l : List α) (i : Nat) (a d : α) (h : i < l.length) :
    (l.set i a).getD i d = a := by
  rw [List.getD_eq_getElem?_getD, List.getElem?_set_self h]
  rfl

/-- Reading an entry other than the one just written. -/
theorem getD_set_ne {α : Type} (l : List α) (i j : Nat) (a d : α) (h : i ≠ j) :
    (l.set i a).getD j d = l.getD j d := by
  rw [List.getD_eq_getElem?_getD, List.getElem?_set_ne h, ← List.getD_eq_getElem?_getD]

/-- Folding the blocks into the accumulator table updates the entry of
region id `r` exactly by the blocks with that id, in order. -/
theorem foldl_acc_entry (hues chromas values : List String) :
    ∀ (blocks : List ColorBlock) (acc : List ColorAccumulator),
      acc.length = 267 →
      (∀ b ∈ blocks, 1 ≤ b.color_id ∧ b.color_id ≤ 267) →
      ∀ r, 1 ≤ r → r ≤ 267 →
      (blocks.foldl (accumulateBlock hues chromas values) acc).getD (r - 1)
          zeroAccumulator =
        (blocks.filter (fun b => b.color_id == r)).foldl
          (contribStep hues chromas values) (acc.getD (r - 1) zeroAccumulator)
  | [], acc, _, _, r, _, _ => rfl
  | b :: bs, acc, hlen, hpos, r, hr1, hr2 => by
    have hb := hpos b (by simp)
    have hlen' : (accumulateBlock hues chromas values acc b).length = 267 := by
      simp [accumulateBlock, hlen]
    have hpos' : ∀ b' ∈ bs, 1 ≤ b'.color_id ∧ b'.color_id ≤ 267 :=
      fun b' hb' => hpos b' (by simp [hb'])
    by_cases he : b.color_id = r
    · have hfil : (b :: bs).filter (fun b => b.color_id == r) =
          b :: bs.filter (fun b => b.color_id == r) := by
        simp [List.filter_cons, he]
      rw [List.foldl_cons, hfil, List.foldl_cons,
        foldl_acc_entry hues chromas values bs _ hlen' hpos' r hr1 hr2]
      congr 1
      unfold accumulateBlock
      rw [he, getD_set_self _ _ _ _ (by omega)]
    · have hfil : (b :: bs).filter (fun b => b.color_id == r) =
          bs.filter (fun b => b.color_id == r) := by
        simp [List.filter_cons, he]
      rw [List.foldl_cons, hfil,
        foldl_acc_entry hues chromas values bs _ hlen' hpos' r hr1 hr2]
      congr 1
      unfold accumulateBlock
      rw [getD_set_ne _ _ _ _ _ (by omega)]

/-- C5: a region id that received exactly the two blocks `b1` and `b2`
has, at finalization, the volume-weighted mean value
`(a*v1 + b*v2) / (v1 + v2)` of the two blocks' center values. -/
theorem mean_value_volumetric (hues chromas values : List String)
    (blocks : List ColorBlock) (r : Nat) (b1 b2 : ColorBlock)
    (hr1 : 1 ≤ r) (hr2 : r ≤ 267)
    (hpos : ∀ b ∈ blocks, 1 ≤ b.color_id ∧ b.color_id ≤ 267)
    (hfil : blocks.filter (fun b => b.color_id == r) = [b1, b2]) :
    meanValueOf hues chromas values blocks r =
      (centerValueOf values b1 * volumeOf hues chromas values b1 +
          centerValueOf values b2 * volumeOf hues chromas values b2) /
        (volumeOf hues chromas values b1 + volumeOf hues chromas values b2) := by
  unfold meanValueOf accumulate
  dsimp only
  rw [foldl_acc_entry hues chromas values blocks _ (by rw [List.length_replicate]) hpos r hr1 hr2, hfil,
    getD_replicate_self]
  simp only [List.foldl_cons, List.foldl_nil]
  unfold contribStep zeroAccumulator
  dsimp only
  congr 1 <;> ring

/-- C5 (witness): two concrete blocks, both for region id 1, split the
hue circle; the finalized mean value is their volume-weighted
average. -/
theorem mean_value_volumetric_witness :
    meanValueOf ["5R", "5YR"] ["0", "1", "INF"] ["0", "1", "INF"]
        [⟨1, 0, 1, 0, 1, 0, 1⟩, ⟨1, 1, 0, 0, 1, 0, 1⟩] 1 =
      (centerValueOf ["0", "1", "INF"] ⟨1, 0, 1, 0, 1, 0, 1⟩ *
          volumeOf ["5R", "5YR"] ["0", "1", "INF"] ["0", "1", "INF"] ⟨1, 0, 1, 0, 1, 0, 1⟩ +
        centerValueOf ["0", "1", "INF"] ⟨1, 1, 0, 0, 1, 0, 1⟩ *
          volumeOf ["5R", "5YR"] ["0", "1", "INF"] ["0", "1", "INF"] ⟨1, 1, 0, 0, 1, 0, 1⟩) /
        (volumeOf ["5R", "5YR"] ["0", "1", "INF"] ["0", "1", "INF"] ⟨1, 0, 1, 0, 1, 0, 1⟩ +
          volumeOf ["5R", "5YR"] ["0", "1", "INF"] ["0", "1", "INF"] ⟨1, 1, 0, 0, 1, 0, 1⟩) :=
  mean_value_volumetric ["5R", "5YR"] ["0", "1", "INF"] ["0", "1", "INF"]
    [⟨1, 0, 1, 0, 1, 0, 1⟩, ⟨1, 1, 0, 0, 1, 0, 1⟩] 1 ⟨1, 0, 1, 0, 1, 0, 1⟩
    ⟨1, 1, 0, 0, 1, 0, 1⟩ (by decide) (by decide) (by decide) (by decide)


/-- C2: on an accumulator with zero total volume (a region id that
received no block), finalization divides `0.0 / 0.0`, producing a
non-finite (NaN) mean color; for every Lch-to-sRGB conversion that
propagates a non-finite lightness to at least one output channel — the
IEEE behavior of the palette conversion — the within-bounds test is
false at every iteration of the gamut-reduction loop, so the loop
never exits, for any iteration bound.  `fatan2` and `fdeg` stand for
`f32::atan2` and `f32::to_degrees`, constrained only by NaN
propagation. -/
theorem gamut_loop_diverges_on_zero_volume
    (fatan2 : NanModel.FV → NanModel.FV → NanModel.FV) (fdeg : NanModel.FV → NanModel.FV)
    (h1 : fatan2 none none = none) (h2 : fdeg none = none)
    (conv : NanModel.LchF → NanModel.SrgbF)
    (hconv : ∀ x : NanModel.LchF, x.l = none →
      (conv x).r = none ∨ (conv x).g = none ∨ (conv x).b = none) :
    ∃ lch, NanModel.finalizeLchF fatan2 fdeg NanModel.zeroAccF = some lch ∧
      lch.l = none ∧ ∀ fuel, NanModel.gamutReduceF conv fuel lch = none := by
  have hfin : NanModel.finalizeLchF fatan2 fdeg NanModel.zeroAccF =
      some ⟨none, none, none⟩ := by
    have hdiv0 : NanModel.fdiv (some 0) (some 0) = none := by
      simp [NanModel.fdiv]
    unfold NanModel.finalizeLchF NanModel.zeroAccF
    dsimp only
    rw [hdiv0, h1, h2]
    rfl
  refine ⟨⟨none, none, none⟩, hfin, rfl, ?_⟩
  have hloop : ∀ (fuel : Nat) (lch : NanModel.LchF), lch.l = none →
      NanModel.gamutReduceF conv fuel lch = none := by
    intro fuel
    induction fuel with
    | zero => intro lch _; rfl
    | succ n ih =>
      intro lch hl
      have hw : NanModel.withinBounds (conv lch) = false := by
        rcases hconv lch hl with h | h | h <;>
          simp [NanModel.withinBounds, h, NanModel.inUnit]
      rw [NanModel.gamutReduceF, hw]
      simp only [Bool.false_eq_true, if_false]
      exact ih _ (by simp [NanModel.shrinkChroma, hl])
  exact fun fuel => hloop fuel _ rfl

/-- C2 (witness): the divergence instantiated with concrete
NaN-propagating stand-ins for `atan2`, `to_degrees` and the
conversion. -/
theorem gamut_loop_diverges_on_zero_volume_witness :
    ∃ lch, NanModel.finalizeLchF (fun _ _ => none) (fun x => x) NanModel.zeroAccF =
        some lch ∧
      lch.l = none ∧
      ∀ fuel, NanModel.gamutReduceF (fun x => ⟨x.l, x.l, x.l⟩) fuel lch = none :=
  gamut_loop_diverges_on_zero_volume (fun _ _ => none) (fun x => x) rfl rfl
    (fun x => ⟨x.l, x.l, x.l⟩) (fun _ hx => Or.inl hx)

/-! ## Theorems for the claims -/

/-- C6 (amended): `get_amount_list` succeeds exactly on lists whose
parsed boundary values are non-strictly non-decreasing, and fails with
the fatal "not in sorted order" configuration error exactly on lists
with a strictly decreasing adjacent pair.  Two equal adjacent boundary
values are accepted, not rejected. -/
theorem axis_sorted_check_nonstrict (xs : List ℚ) :
    (getAmountList xs = .ok xs ↔ xs.Chain' (· ≤ ·)) ∧
    (getAmountList xs = .error "array is not in sorted order" ↔ ¬ xs.Chain' (· ≤ ·)) := by
  unfold getAmountList
  by_cases h : isSortedList xs = true
  · rw [if_pos h]
    rw [isSortedList_iff_chain] at h
    simp [h]
  · rw [if_neg h]
    rw [isSortedList_iff_chain] at h
    simp [h]

/-- C6 (counterexample): a list with two equal adjacent boundary
values is not strictly increasing, yet `get_amount_list` accepts it. -/
theorem axis_equal_adjacent_accepted :
    getAmountList [1, 1] = .ok [1, 1] ∧ ¬ specStrictlyIncreasing [1, 1] := by
  constructor
  · norm_num [getAmountList, isSortedList]
  · simp [specStrictlyIncreasing]

/-- C7 (counterexample): the round-trip of the canonical
sector-boundary notation "5R" renders with two decimal digits, so it
does not return "5R" itself. -/
theorem hue_roundtrip_5R_fails :
    roundTrip "5R" = some "5.00R" ∧ "5.00R" ≠ "5R" := by
  constructor
  · simp +decide [roundTrip, huespecToPoint, parseNum, findCode, LETTER_CODES, digitsVal,
      List.takeWhile, List.dropWhile, List.range, List.range.loop, List.find?, List.isPrefixOf]
    norm_num [fmodQ, displayPoint, formatFixed2]
    decide
  · decide

/-- C7 (amended): for sector-boundary notations written in the
renderer's own two-decimal form, and whose sector code is not RP (the
parsing regex's alternation order makes the alternative R shadow RP),
`from_str` followed by `to_string` is the identity. -/
theorem hue_roundtrip_two_decimals : ∀ k : Fin 9,
    roundTrip ("5.00" ++ LETTER_CODES.getD k.val "") =
      some ("5.00" ++ LETTER_CODES.getD k.val "") := by
  intro k
  fin_cases k <;>
    · simp +decide [roundTrip, huespecToPoint, parseNum, findCode, LETTER_CODES, digitsVal,
        fracVal, List.takeWhile, List.dropWhile, List.range, List.range.loop, List.find?,
        List.isPrefixOf]
      norm_num [fmodQ, displayPoint, formatFixed2]
      decide

/-- C9: the `index` closure's hue bound uses `h > hues.len()` rather
than `h >= hues.len()`: for `h` equal to `hues.len()` and in-range `c`
and `v`, the guard passes and the closure returns `some` of an offset
that lies in the hue plane one past the end of the
`hues.len() * (chromas.len()-1) * (values.len()-1)` table. -/
theorem index_guard_off_by_one (huesLen chromasLen valuesLen c v : Nat)
    (hc : c < chromasLen - 1) (hv : v < valuesLen - 1) :
    indexFn huesLen chromasLen valuesLen huesLen c v =
      some (huesLen * ((chromasLen - 1) * (valuesLen - 1)) + c * (valuesLen - 1) + v) ∧
    huesLen * ((chromasLen - 1) * (valuesLen - 1)) ≤
      huesLen * ((chromasLen - 1) * (valuesLen - 1)) + c * (valuesLen - 1) + v ∧
    huesLen * ((chromasLen - 1) * (valuesLen - 1)) + c * (valuesLen - 1) + v <
      huesLen * ((chromasLen - 1) * (valuesLen - 1)) + (chromasLen - 1) * (valuesLen - 1) := by
  refine ⟨?_, by omega, ?_⟩
  · unfold indexFn
    rw [if_neg (by omega), if_neg (by omega), if_neg (by omega)]
  · have h1 : c * (valuesLen - 1) + v < (c + 1) * (valuesLen - 1) := by
      rw [Nat.succ_mul]; omega
    have h2 : (c + 1) * (valuesLen - 1) ≤ (chromasLen - 1) * (valuesLen - 1) :=
      Nat.mul_le_mul_right _ (by omega)
    omega

/-- C9 (witness): concrete instance with a 2-hue, 2-chroma-cell,
2-value-cell table: the out-of-range hue index 2 passes the guard. -/
theorem index_guard_off_by_one_witness :
    indexFn 2 3 3 2 0 1 =
      some (2 * ((3 - 1) * (3 - 1)) + 0 * (3 - 1) + 1) ∧
    2 * ((3 - 1) * (3 - 1)) ≤ 2 * ((3 - 1) * (3 - 1)) + 0 * (3 - 1) + 1 ∧
    2 * ((3 - 1) * (3 - 1)) + 0 * (3 - 1) + 1 <
      2 * ((3 - 1) * (3 - 1)) + (3 - 1) * (3 - 1) :=
  index_guard_off_by_one 2 3 3 0 1 (by decide) (by decide)

/-- C10: `to_approximate_lch` is in-bounds on the anchor table for raw
hue values in `[0, 100)` (the segment index is then at most 4), an
access with raw hue at least 100 runs off the end of `LABHUE_HUES`
(a panic, embedded as `none`), and `MunsellHue::new` stores its
argument without normalization. -/
theorem to_approximate_lch_totality :
    (∀ (q val chr : ℚ), 0 ≤ q → q < 100 →
        (⌊q / 20⌋).toNat ≤ 4 ∧
          ((MunsellColor.mk (MunsellHue.mk q) val chr).toApproximateLch).isSome = true) ∧
    (∀ (q val chr : ℚ), 100 ≤ q →
        (MunsellColor.mk (MunsellHue.mk q) val chr).toApproximateLch = none) ∧
    (∀ q : ℚ, (MunsellHue.mk q).raw = q) := by
  refine ⟨?_, ?_, fun q => rfl⟩
  · intro q val chr h0 h100
    have hlt : ⌊q / 20⌋ < 5 := Int.floor_lt.mpr (by push_cast; linarith)
    have hge : (0 : ℤ) ≤ ⌊q / 20⌋ := Int.floor_nonneg.mpr (by positivity)
    have hn : (⌊q / 20⌋).toNat ≤ 4 := by omega
    refine ⟨hn, ?_⟩
    simp only [MunsellColor.toApproximateLch]
    rw [List.get?_eq_get (by simp [LABHUE_HUES]; omega),
      List.get?_eq_get (show (⌊q / 20⌋).toNat + 1 < LABHUE_HUES.length by simp [LABHUE_HUES]; omega)]
    rfl
  · intro q val chr h
    have hge : (5 : ℤ) ≤ ⌊q / 20⌋ := Int.le_floor.mpr (by push_cast; linarith)
    have hnone : LABHUE_HUES.get? ((⌊q / 20⌋).toNat + 1) = none := by
      rw [List.get?_eq_none]
      simp only [LABHUE_HUES, List.length]
      omega
    simp only [MunsellColor.toApproximateLch]
    rw [hnone]
    cases LABHUE_HUES.get? ((⌊q / 20⌋).toNat) <;> rfl

/-- C10 (witness): concrete instances — hue 50 is safely interpolated,
hue 100 runs off the anchor table, and `new` keeps 7 unchanged. -/
theorem to_approximate_lch_totality_witness :
    ((⌊(50 : ℚ) / 20⌋).toNat ≤ 4 ∧
      ((MunsellColor.mk (MunsellHue.mk 50) 3 4).toApproximateLch).isSome = true) ∧
    (MunsellColor.mk (MunsellHue.mk 100) 3 4).toApproximateLch = none ∧
    (MunsellHue.mk 7).raw = 7 :=
  ⟨to_approximate_lch_totality.1 50 3 4 (by norm_num) (by norm_num),
   to_approximate_lch_totality.2.1 100 3 4 (by norm_num),
   to_approximate_lch_totality.2.2 7⟩

end ISCC
